import Mathlib

/-!
# Verification of the `hungarian-algorithm-n3` repository

A shallow embedding, in Lean 4, of `hungarian.c` (an O(n³) implementation of
the Hungarian / Kuhn–Munkres assignment algorithm) together with proofs and
refutations of a list of specification claims about it.

Modelling conventions:
* C `long` / `int_fast64_t` cell values are modelled as `Int` (the claims under
  study are about the mathematical behaviour of the algorithm, not about
  64-bit wrap-around; the single place where a fixed-width constant matters,
  the literal `0x7FFFffffL` in `kuhn_addAndSubtract`, is kept verbatim).
* The 64-bit limbs of `BitSet` are modelled as `Nat` values `< 2^64`; the
  C expression `limb & -limb` (two's-complement negation) is modelled as
  `limb &&& (2^64 - limb)`, which agrees with the C computation for every
  value of a 64-bit limb.
* Mutable arrays become total functions `Nat → _` updated with
  `Function.update`; out-of-range entries are never read by the algorithm.
* The unbounded C `for (;;)` loops become structurally recursive functions
  over an explicit `fuel : Nat`, returning `none` when the fuel runs out.
-/

/-- Cell marking (C: `#define UNMARKED 0L`, `MARKED 1L`, `PRIME 2L`). -/
inductive Mark where
  | UNMARKED : Mark
  | MARKED : Mark
  | PRIME : Mark
deriving DecidableEq, Repr

/-- A cost table, `t[i][j]` for `i < n`, `j < m`. -/
def Table : Type := Nat → Nat → Int

/-- The marking matrix built by `kuhn_mark` and mutated afterwards. -/
def Marks : Type := Nat → Nat → Mark

/-- A row or column cover array (`boolean*` in the C code). -/
def Cover : Type := Nat → Bool

/-- The all-false cover array every phase starts from. -/
def noCover : Cover := fun _ => false

/-- One 64-bit limb of a `BitSet`, as a natural number `< 2^64`. -/
def limbW : Nat := 2 ^ 64

/-- `BitSet`: a fixed-size set of bits: the limbs plus a doubly linked list
(`first`, `prev`, `next`, all 1-based with `0` as null) over the non-zero
limbs.  Faithful to the C `struct` of `hungarian.c` (the singleton array
`long* first` is modelled by a plain field). -/
@[ext] structure BitSet where
  limbs : Nat → Nat
  first : Nat
  prev : Nat → Nat
  next : Nat → Nat

/-- `new_BitSet(size)`: every limb zero, every link zero, `first = 0`. -/
def new_BitSet (_size : Nat) : BitSet :=
  { limbs := fun _ => 0, first := 0, prev := fun _ => 0, next := fun _ => 0 }

/-- `BitSet_set(this, i)`: turn bit `i` on; on a `0 → non-0` limb transition,
push the limb at the front of the linked list of non-empty limbs. -/
def BitSet_set (this : BitSet) (i : Nat) : BitSet :=
  let j := i >>> 6
  let old := this.limbs j
  let newLimb := old ||| (1 <<< (i &&& 63))
  let limbs' := Function.update this.limbs j newLimb
  if (decide (newLimb = 0)).xor (decide (old = 0)) then
    let j1 := j + 1
    { limbs := limbs'
      prev := Function.update (Function.update this.prev this.first j1) j1 0
      next := Function.update this.next j1 this.first
      first := j1 }
  else
    { this with limbs := limbs' }

/-- `BitSet_unset(this, i)`: turn bit `i` off; on a `non-0 → 0` limb
transition, splice the limb out of the linked list. -/
def BitSet_unset (this : BitSet) (i : Nat) : BitSet :=
  let j := i >>> 6
  let old := this.limbs j
  let newLimb := old &&& ((limbW - 1) ^^^ (1 <<< (i &&& 63)))
  let limbs' := Function.update this.limbs j newLimb
  if (decide (newLimb = 0)).xor (decide (old = 0)) then
    let j1 := j + 1
    let p := this.prev j1
    let n := this.next j1
    { limbs := limbs'
      prev := Function.update this.prev n p
      next := Function.update this.next p n
      first := if this.first = j1 then n else this.first }
  else
    { this with limbs := limbs' }

/-- `lb(value)`: floored binary logarithm by binary search over shifted
masks, exactly mirroring the C sequence of six conditional steps. -/
def lb (value : Nat) : Nat :=
  let rc := 0
  let v := value
  let rc := if v &&& 0xFFFFFFFF00000000 ≠ 0 then rc ||| 32 else rc
  let v := if v &&& 0xFFFFFFFF00000000 ≠ 0 then v >>> 32 else v
  let rc := if v &&& 0x00000000FFFF0000 ≠ 0 then rc ||| 16 else rc
  let v := if v &&& 0x00000000FFFF0000 ≠ 0 then v >>> 16 else v
  let rc := if v &&& 0x000000000000FF00 ≠ 0 then rc ||| 8 else rc
  let v := if v &&& 0x000000000000FF00 ≠ 0 then v >>> 8 else v
  let rc := if v &&& 0x00000000000000F0 ≠ 0 then rc ||| 4 else rc
  let v := if v &&& 0x00000000000000F0 ≠ 0 then v >>> 4 else v
  let rc := if v &&& 0x000000000000000C ≠ 0 then rc ||| 2 else rc
  let v := if v &&& 0x000000000000000C ≠ 0 then v >>> 2 else v
  let rc := if v &&& 0x0000000000000002 ≠ 0 then rc ||| 1 else rc
  rc

/-- `BitSet_any(this)`: `-1` if the linked list of non-empty limbs is empty,
else the index of the lowest set bit of the first non-empty limb
(`lb(limb & -limb) + (i << 6)`). -/
def BitSet_any (this : BitSet) : Int :=
  if this.first = 0 then -1
  else
    let i := this.first - 1
    let limb := this.limbs i
    Int.ofNat (lb (limb &&& (limbW - limb)) + (i <<< 6))

/-- Membership of bit `i` in the bit set, limb-wise (reference predicate). -/
def BitSet.bitGet (this : BitSet) (i : Nat) : Bool :=
  (this.limbs (i >>> 6)).testBit (i &&& 63)

/-- Pointwise update of a marking matrix (C: `marks[i][j] = v`). -/
def updMark (marks : Marks) (i j : Nat) (v : Mark) : Marks :=
  fun a b => if a = i ∧ b = j then v else marks a b

/-- The minimum of row `i` as computed by the first inner loop of
`kuhn_reduceRows`: start from `t[i][0]`, scan `j = 1 .. m-1`. -/
def kuhn_rowMin (t : Table) (m i : Nat) : Int :=
  ((List.range m).drop 1).foldl (fun mn j => if mn > t i j then t i j else mn) (t i 0)

/-- `kuhn_reduceRows(t, n, m)`: subtract from every cell of each row the
minimum value of that row. -/
def kuhn_reduceRows (t : Table) (n m : Nat) : Table :=
  fun i j => if i < n ∧ j < m then t i j - kuhn_rowMin t m i else t i j

/-- `kuhn_mark(t, n, m)`: scan cells in row-major order, marking a cell
`MARKED` when its value is zero and neither its row nor its column already
holds a marking made by this scan. -/
def kuhn_mark (t : Table) (n m : Nat) : Marks :=
  let final := (List.range n).foldl (fun st i =>
    (List.range m).foldl (fun st j =>
      if ¬ st.2.1 i ∧ ¬ st.2.2 j ∧ t i j = 0 then
        (updMark st.1 i j Mark.MARKED,
         Function.update st.2.1 i true,
         Function.update st.2.2 j true)
      else st) st)
    ((fun _ _ => Mark.UNMARKED, noCover, noCover) : Marks × Cover × Cover)
  final.1

/-- `kuhn_isDone(marks, colCovered, n, m)`: set `colCovered[j]` for every
column `j < m` that contains a `MARKED` cell (never clearing any entry that
was already set), then report whether the number of covered columns equals
`n`.  Returns the mutated cover array together with the boolean result. -/
def kuhn_isDone (marks : Marks) (colCovered : Cover) (n m : Nat) : Cover × Bool :=
  let colCovered' := (List.range m).foldl (fun cc j =>
    if (List.range n).any (fun i => decide (marks i j = Mark.MARKED)) then
      Function.update cc j true
    else cc) colCovered
  let count := ((List.range m).filter (fun j => colCovered' j)).length
  (colCovered', decide (count = n))

/-- The initial zero set of `kuhn_findPrime`: every cell whose value is zero
and whose row and column are both uncovered. -/
def kuhn_findPrime_init (t : Table) (rowCovered colCovered : Cover) (n m : Nat) : BitSet :=
  (List.range n).foldl (fun z i =>
    if ¬ rowCovered i then
      (List.range m).foldl (fun z j =>
        if ¬ colCovered j ∧ t i j = 0 then BitSet_set z (i * m + j) else z) z
    else z) (new_BitSet (n * m))

/-- The `for (;;)` loop of `kuhn_findPrime`, with explicit fuel.  Pops any
member of the zero set, primes it, and either returns it (no `MARKED` cell
in its row) or covers its row, uncovers the mark's column and incrementally
fixes the zero set.  `none` = out of fuel; `some (none, ...)` = the C
function returned `null` (zero set exhausted); `some (some rc, ...)` = a
prime was found at `rc`. -/
def kuhn_findPrime_go (t : Table) (n m : Nat) :
    Nat → BitSet → Marks → Cover → Cover →
      Option (Option (Nat × Nat) × Marks × Cover × Cover)
  | 0, _, _, _, _ => none
  | fuel+1, zeroes, marks, rowCovered, colCovered =>
    let p := BitSet_any zeroes
    if p < 0 then some (none, marks, rowCovered, colCovered)
    else
      let row := p.toNat / m
      let col0 := p.toNat % m
      let marks := updMark marks row col0 Mark.PRIME
      let scan := (List.range m).foldl (fun st j =>
        if marks row j = Mark.MARKED then (true, j) else st) (false, col0)
      if scan.1 then
        let col := scan.2
        let rowCovered := Function.update rowCovered row true
        let colCovered := Function.update colCovered col false
        let zeroes := (List.range n).foldl (fun z i =>
          if t i col = 0 ∧ row ≠ i then
            if ¬ rowCovered i ∧ ¬ colCovered col then BitSet_set z (i * m + col)
            else BitSet_unset z (i * m + col)
          else z) zeroes
        let zeroes := (List.range m).foldl (fun z j =>
          if t row j = 0 ∧ col ≠ j then
            if ¬ rowCovered row ∧ ¬ colCovered j then BitSet_set z (row * m + j)
            else BitSet_unset z (row * m + j)
          else z) zeroes
        let zeroes :=
          if ¬ rowCovered row ∧ ¬ colCovered col then BitSet_set zeroes (row * m + col)
          else BitSet_unset zeroes (row * m + col)
        kuhn_findPrime_go t n m fuel zeroes marks rowCovered colCovered
      else
        some (some (row, scan.2), marks, rowCovered, colCovered)

/-- `kuhn_findPrime(t, marks, rowCovered, colCovered, n, m)`. -/
def kuhn_findPrime (fuel : Nat) (t : Table) (marks : Marks)
    (rowCovered colCovered : Cover) (n m : Nat) :
    Option (Option (Nat × Nat) × Marks × Cover × Cover) :=
  kuhn_findPrime_go t n m fuel
    (kuhn_findPrime_init t rowCovered colCovered n m) marks rowCovered colCovered

/-- The `colMarks` / `rowPrimes` lookup tables of `kuhn_altMarks`:
`colMarks[j]` is the (last) row with a `MARKED` cell in column `j` and
`rowPrimes[i]` the (last) column with a `PRIME` cell in row `i`, `-1` when
none. -/
def kuhn_altMarks_tables (marks : Marks) (n m : Nat) : (Nat → Int) × (Nat → Int) :=
  (List.range n).foldl (fun st i =>
    (List.range m).foldl (fun st j =>
      if marks i j = Mark.MARKED then
        (Function.update st.1 j (Int.ofNat i), st.2)
      else if marks i j = Mark.PRIME then
        (st.1, Function.update st.2 i (Int.ofNat j))
      else st) st)
    ((fun _ => (-1 : Int)), (fun _ => (-1 : Int)))

/-- The alternating-path loop of `kuhn_altMarks`, with explicit fuel: from
the cell last appended (whose column is `lastCol`), look up the `MARKED`
row of that column; stop when there is none, else append the marked cell
and then the `PRIME` cell of the marked cell's row.  Returns the whole
path, terminal prime first.  (When a traversed row has no prime the C code
reads `rowPrimes[row] == -1` and uses it as an index, which is undefined
behaviour; the model clamps it to column `0` via `Int.toNat`.) -/
def kuhn_altMarks_path (colMarks rowPrimes : Nat → Int) :
    Nat → Nat → List (Nat × Nat) → Option (List (Nat × Nat))
  | 0, _, _ => none
  | fuel+1, lastCol, acc =>
    let row := colMarks lastCol
    if row < 0 then some acc.reverse
    else
      let col := rowPrimes row.toNat
      kuhn_altMarks_path colMarks rowPrimes fuel col.toNat
        ((row.toNat, col.toNat) :: (row.toNat, lastCol) :: acc)

/-- `kuhn_altMarks(marks, ..., prime, n, m)`: walk the alternating
star/prime path from the terminal prime, flip `MARKED ↔` non-`MARKED`
along it, then clear every remaining `PRIME` in the `n×m` grid. -/
def kuhn_altMarks (fuel : Nat) (marks : Marks) (prime : Nat × Nat) (n m : Nat) :
    Option Marks :=
  let tables := kuhn_altMarks_tables marks n m
  match kuhn_altMarks_path tables.1 tables.2 fuel prime.2 [prime] with
  | none => none
  | some alt =>
    let marks := alt.foldl (fun mk rc =>
      if mk rc.1 rc.2 = Mark.MARKED then updMark mk rc.1 rc.2 Mark.UNMARKED
      else updMark mk rc.1 rc.2 Mark.MARKED) marks
    some (fun i j =>
      if i < n ∧ j < m ∧ marks i j = Mark.PRIME then Mark.UNMARKED else marks i j)

/-- The minimum search of `kuhn_addAndSubtract`: starting from the literal
`0x7FFFffffL`, take the least value among cells whose row and column are
both uncovered. -/
def kuhn_addAndSubtract_min (t : Table) (rowCovered colCovered : Cover) (n m : Nat) : Int :=
  (List.range n).foldl (fun mn i =>
    if ¬ rowCovered i then
      (List.range m).foldl (fun mn j =>
        if ¬ colCovered j ∧ mn > t i j then t i j else mn) mn
    else mn) 0x7FFFffff

/-- `kuhn_addAndSubtract(t, rowCovered, colCovered, n, m)`: add the computed
minimum to every cell of a covered row and subtract it from every cell of
an uncovered column. -/
def kuhn_addAndSubtract (t : Table) (rowCovered colCovered : Cover) (n m : Nat) : Table :=
  let min := kuhn_addAndSubtract_min t rowCovered colCovered n m
  fun i j =>
    if i < n ∧ j < m then
      t i j + (if rowCovered i then min else 0) -
        (if colCovered j = false then min else 0)
    else t i j

/-- `kuhn_assign(marks, n, m)`: one `(row, column)` pair per row, the column
being that of the (last) `MARKED` cell of the row.  The C code leaves the
pair uninitialised when the row has no `MARKED` cell; the junk contents of
the freshly `malloc`ed pair are modelled by `(0, 0)`. -/
def kuhn_assign (marks : Marks) (n m : Nat) : List (Nat × Nat) :=
  (List.range n).map (fun i =>
    (List.range m).foldl (fun p j => if marks i j = Mark.MARKED then (i, j) else p) (0, 0))

/-- The inner `for (;;)` loop of `kuhn_match`: run `kuhn_findPrime`; on
`null`, rebalance with `kuhn_addAndSubtract` and retry; on a found prime,
run `kuhn_altMarks` and leave the loop (the cover reset that follows in the
C code is performed by the caller).  `fuelP`/`fuelA` is the fuel handed to
each `kuhn_findPrime` / `kuhn_altMarks` call. -/
def kuhn_match_inner (n m fuelP fuelA : Nat) :
    Nat → Table → Marks → Cover → Cover → Option (Table × Marks)
  | 0, _, _, _, _ => none
  | fuel+1, t, marks, rowCovered, colCovered =>
    match kuhn_findPrime fuelP t marks rowCovered colCovered n m with
    | none => none
    | some (none, marks', rowCovered', colCovered') =>
      kuhn_match_inner n m fuelP fuelA fuel
        (kuhn_addAndSubtract t rowCovered' colCovered' n m) marks' rowCovered' colCovered'
    | some (some prime, marks', _, _) =>
      match kuhn_altMarks fuelA marks' prime n m with
      | none => none
      | some marks'' => some (t, marks'')

/-- The outer `for (;;)` loop of `kuhn_match`: stop as soon as
`kuhn_isDone` reports completion, else run the inner loop (which ends with
an augmentation) and reset both cover arrays. -/
def kuhn_match_loop (n m fuelP fuelA : Nat) :
    Nat → Table → Marks → Cover → Cover → Option Marks
  | 0, _, _, _, _ => none
  | fuel+1, t, marks, rowCovered, colCovered =>
    let id := kuhn_isDone marks colCovered n m
    if id.2 then some marks
    else
      match kuhn_match_inner n m fuelP fuelA (fuel+1) t marks rowCovered id.1 with
      | none => none
      | some (t', marks') =>
        kuhn_match_loop n m fuelP fuelA fuel t' marks' noCover noCover

/-- `kuhn_match(table, n, m)`: row-reduce, star greedily, then loop
(find prime / rebalance / augment) until done, and read off the
assignment.  `fuel` bounds every loop of the algorithm; `none` = out of
fuel. -/
def kuhn_match (fuel : Nat) (table : Table) (n m : Nat) : Option (List (Nat × Nat)) :=
  let t := kuhn_reduceRows table n m
  let marks := kuhn_mark t n m
  match kuhn_match_loop n m fuel fuel fuel t marks noCover noCover with
  | none => none
  | some marks' => some (kuhn_assign marks' n m)

/-- Build a `Table` from a list of rows (test helper). -/
def tableOf (rows : List (List Int)) : Table :=
  fun i j => (rows.getD i []).getD j 0

/-- An operation on a `BitSet`: `BitSet_set(i)` or `BitSet_unset(i)`. -/
inductive BOp where
  | bset (i : Nat) : BOp
  | bunset (i : Nat) : BOp
deriving DecidableEq, Repr

/-- The bit index an operation addresses. -/
def BOp.idx : BOp → Nat
  | .bset i => i
  | .bunset i => i

/-- Replay a sequence of operations on a bit set. -/
def applyBOps (ops : List BOp) (s : BitSet) : BitSet :=
  ops.foldl (fun s op =>
    match op with
    | .bset i => BitSet_set s i
    | .bunset i => BitSet_unset s i) s

/-- The number of limbs allocated by `new_BitSet(size)`:
`c = size >> 6`, plus one when `size & 63` is non-zero. -/
def bitcap (size : Nat) : Nat :=
  (size >>> 6) + (if size &&& 63 ≠ 0 then 1 else 0)

/-- `linkedFrom nx pv p L`: the (1-based) limb indices in `L` form a doubly
linked chain under the `next`/`prev` arrays, the first element's `prev`
being `p` and the last element's `next` being `0`. -/
def linkedFrom (nx pv : Nat → Nat) : Nat → List Nat → Prop
  | _, [] => True
  | p, x :: L => pv x = p ∧ nx x = L.headD 0 ∧ linkedFrom nx pv x L

/-- Well-formedness of a `BitSet` of capacity `size` bits: some duplicate-free
list `L` of positive (1-based) limb indices is chained through
`first`/`prev`/`next`, a limb is listed iff it is non-zero, every limb is a
64-bit value, and no bit at index `≥ size` is set. -/
def BitSetWF (size : Nat) (s : BitSet) : Prop :=
  ∃ L : List Nat, L.Nodup ∧ (∀ x ∈ L, 1 ≤ x)
    ∧ s.first = L.headD 0
    ∧ linkedFrom s.next s.prev 0 L
    ∧ (∀ k : Nat, s.limbs k ≠ 0 ↔ (k + 1) ∈ L)
    ∧ (∀ k : Nat, s.limbs k < limbW)
    ∧ (∀ i : Nat, size ≤ i → s.bitGet i = false)

/-- The 1-based limb indices visited by following `next` from a given
start, stopping at the null index `0` or when the fuel runs out. -/
def reachChain (s : BitSet) : Nat → Nat → List Nat
  | 0, _ => []
  | fuel+1, p => if p = 0 then [] else p :: reachChain s fuel (s.next p)

/-- The limbs reachable in the linked traversal structure (`first`, then
`next` links). -/
def BitSet_reachable (s : BitSet) (fuel : Nat) : List Nat :=
  reachChain s fuel s.first

/-- The row-major list of all cell coordinates of an `n × m` table. -/
def cellList (n m : Nat) : List (Nat × Nat) :=
  (List.range n).flatMap (fun i => (List.range m).map (fun j => (i, j)))

/-- The number of cells that are zero-valued and whose row and column are
both uncovered — the zeros "available under the current cover". -/
def uncoveredZeroCount (t : Table) (rc cc : Cover) (n m : Nat) : Nat :=
  ((cellList n m).filter
    (fun p => decide (rc p.1 = false ∧ cc p.2 = false ∧ t p.1 p.2 = 0))).length

/-- Concrete fixture for the rebalance counterexample (claim C4): both
columns of value `2147483653 > 0x7FFFffff` beyond the zero column. -/
def cexTable4 : Table := tableOf [[0, 2147483653], [0, 2147483653]]

/-- The fixture after row reduction (unchanged: both row minima are 0). -/
def cexReduced4 : Table := kuhn_reduceRows cexTable4 2 2

/-- The fixture's initial starring. -/
def cexMarks4 : Marks := kuhn_mark cexReduced4 2 2

/-- The fixture's column cover as produced by the first `kuhn_isDone`. -/
def cexCol4 : Cover := (kuhn_isDone cexMarks4 noCover 2 2).1

/-! ## General lemmas about the cover-update folds -/

/-- Applying the `colCovered[j] = true` fold of `kuhn_isDone` (and of
`kuhn_mark`-style loops): an entry is set afterwards iff it was set before
or the predicate holds for it and it lies in the scanned list. -/
theorem foldl_coverUpdate_apply (P : Nat → Bool) (L : List Nat) (cc : Cover) (j : Nat) :
    (L.foldl (fun cc j => if P j then Function.update cc j true else cc) cc) j
      = (cc j || (decide (j ∈ L) && P j)) := by
  induction L generalizing cc with
  | nil => simp
  | cons x L ih =>
    simp only [List.foldl_cons]
    by_cases hx : P x
    · rw [ih]
      by_cases hj : j = x
      · subst hj; simp [hx, Function.update_same]
      · simp [Function.update_apply, hj, hx]
    · rw [if_neg (by simpa using hx), ih]
      by_cases hj : j = x
      · subst hj; simp [hx]
      · simp [hj]

/-- The cover array returned by `kuhn_isDone`, pointwise. -/
theorem kuhn_isDone_fst_apply (marks : Marks) (cc : Cover) (n m j : Nat) :
    (kuhn_isDone marks cc n m).1 j
      = (cc j || (decide (j < m) &&
          (List.range n).any (fun i => decide (marks i j = Mark.MARKED)))) := by
  show ((List.range m).foldl (fun cc j =>
      if (List.range n).any (fun i => decide (marks i j = Mark.MARKED)) then
        Function.update cc j true
      else cc) cc) j = _
  rw [foldl_coverUpdate_apply]
  simp [List.mem_range]

/-- Bridge between the C-style count (`length` of a `filter` over the
scanned indices) and the mathematical count (`Finset.card`). -/
theorem length_filter_range_eq_card (m : Nat) (p : Nat → Bool) :
    ((List.range m).filter p).length
      = ((Finset.range m).filter (fun j => p j = true)).card := by
  induction m with
  | zero => rfl
  | succ m ih =>
    rw [List.range_succ, List.filter_append, List.length_append,
      Finset.range_succ, Finset.filter_insert]
    by_cases h : p m = true
    · rw [if_pos h, Finset.card_insert_of_not_mem (by simp)]
      simp [h, ih]
    · rw [if_neg h]
      simp [h, ih]

/-- **C6** (amended).  `kuhn_isDone` only ever *adds* column covers: on
return, `colCovered[j]` is true iff it was already true on entry or column
`j < m` contains a `MARKED` cell, and the call returns true iff the number
of covered columns of the returned array equals `n`.  (The from-scratch
recomputation asserted by the claim fails: a stale entry cover survives,
see `C6_counterexample`.) -/
theorem C6_isDone_accumulates (marks : Marks) (cc : Cover) (n m : Nat) :
    (∀ j, (kuhn_isDone marks cc n m).1 j = true ↔
      (cc j = true ∨ (j < m ∧ ∃ i < n, marks i j = Mark.MARKED)))
    ∧ ((kuhn_isDone marks cc n m).2 = true ↔
      ((Finset.range m).filter
        (fun j => (kuhn_isDone marks cc n m).1 j = true)).card = n) := by
  constructor
  · intro j
    rw [kuhn_isDone_fst_apply]
    simp [List.mem_range]
  · show decide ((((List.range m).filter
        (fun j => (kuhn_isDone marks cc n m).1 j))).length = n) = true ↔ _
    rw [length_filter_range_eq_card]
    simp

/-- **C6** counterexample: with every cell `UNMARKED` but the entry cover
already true, `kuhn_isDone` leaves column `0` covered and even reports
completion — the cover is *not* recomputed from scratch on every call. -/
theorem C6_counterexample :
    (kuhn_isDone (fun _ _ => Mark.UNMARKED) (fun _ => true) 1 1).1 0 = true
    ∧ (∀ i j, (fun _ _ => Mark.UNMARKED : Marks) i j ≠ Mark.MARKED)
    ∧ (kuhn_isDone (fun _ _ => Mark.UNMARKED) (fun _ => true) 1 1).2 = true := by
  exact ⟨rfl, fun i j h => Mark.noConfusion h, rfl⟩

/-- `kuhn_isDone` can never report completion when `m < n`: it counts at
most `m` covered columns. -/
theorem kuhn_isDone_false_of_lt (marks : Marks) (cc : Cover) (n m : Nat) (h : m < n) :
    (kuhn_isDone marks cc n m).2 = false := by
  show decide ((((List.range m).filter
      (fun j => (kuhn_isDone marks cc n m).1 j))).length = n) = false
  refine decide_eq_false ?_
  intro hc
  have hle := List.length_filter_le
    (fun j => (kuhn_isDone marks cc n m).1 j) (List.range m)
  rw [hc, List.length_range] at hle
  omega

/-- With `n = 0` and an all-false entry cover, `kuhn_isDone` immediately
reports completion. -/
theorem kuhn_isDone_zero_rows (marks : Marks) (m : Nat) :
    (kuhn_isDone marks noCover 0 m).2 = true := by
  have h1 : (List.range m).filter (fun j => (kuhn_isDone marks noCover 0 m).1 j) = [] := by
    refine List.filter_eq_nil_iff.2 ?_
    intro j _
    rw [kuhn_isDone_fst_apply]
    simp [noCover]
  show decide ((((List.range m).filter
      (fun j => (kuhn_isDone marks noCover 0 m).1 j))).length = 0) = true
  rw [h1]
  rfl

/-- With `m < n` the main loop of `kuhn_match` never exits, whatever the
fuel: `kuhn_isDone` is false at every iteration. -/
theorem kuhn_match_loop_none_of_lt (n m fuelP fuelA : Nat) (h : m < n) :
    ∀ (fuel : Nat) (t : Table) (marks : Marks) (rowCovered colCovered : Cover),
      kuhn_match_loop n m fuelP fuelA fuel t marks rowCovered colCovered = none := by
  intro fuel
  induction fuel with
  | zero => intro t marks rc cc; rfl
  | succ fuel ih =>
    intro t marks rc cc
    simp only [kuhn_match_loop, kuhn_isDone_false_of_lt _ _ _ _ h, Bool.false_eq_true,
      if_false]
    cases kuhn_match_inner n m fuelP fuelA (fuel+1) t marks rc
        (kuhn_isDone marks cc n m).1 with
    | none => rfl
    | some r => exact ih r.1 r.2 noCover noCover

/-- With `n = 0`, `kuhn_match` runs to completion on its first outer-loop
iteration and returns the empty assignment. -/
theorem kuhn_match_zero_rows (t : Table) (m fuel : Nat) :
    kuhn_match (fuel+1) t 0 m = some [] := by
  unfold kuhn_match
  simp only [kuhn_match_loop, kuhn_isDone_zero_rows, if_true]
  rfl

/-- **C3** (amended).  `kuhn_match` performs no input validation at all:
with `n = 0` it runs the full algorithm and returns an empty assignment
(no failure is surfaced), and with `n > m` it never completes — for every
fuel bound the fueled model returns `none`, because `kuhn_isDone` can
cover at most `m < n` columns and thus never reports completion. -/
theorem C3_no_input_validation :
    (∀ (t : Table) (m fuel : Nat), kuhn_match (fuel+1) t 0 m = some [])
    ∧ (∀ (fuel : Nat) (t : Table) (n m : Nat), m < n →
        kuhn_match fuel t n m = none) := by
  constructor
  · exact kuhn_match_zero_rows
  · intro fuel t n m h
    unfold kuhn_match
    cases fuel with
    | zero => rfl
    | succ fuel =>
      show (match kuhn_match_loop n m (fuel+1) (fuel+1) (fuel+1)
          (kuhn_reduceRows t n m) (kuhn_mark (kuhn_reduceRows t n m) n m)
          noCover noCover with
        | none => none
        | some marks' => some (kuhn_assign marks' n m)) = none
      rw [kuhn_match_loop_none_of_lt n m _ _ h]

/-- **C3** witness: the amended claim at concrete inputs. -/
theorem C3_no_input_validation_witness :
    kuhn_match 5 (tableOf [[7]]) 0 3 = some []
    ∧ kuhn_match 7 (tableOf [[1,2],[3,4],[5,6]]) 3 2 = none := by
  exact ⟨C3_no_input_validation.1 (tableOf [[7]]) 3 4,
    C3_no_input_validation.2 7 (tableOf [[1,2],[3,4],[5,6]]) 3 2 (by decide)⟩

/-- **C3** counterexample: a shape the claim says must "fail before any
work begins" (`n == 0`) instead runs the algorithm to completion and
returns an ordinary (empty) assignment to the caller. -/
theorem C3_counterexample : kuhn_match 1 (tableOf []) 0 1 = some [] := by rfl

/-- The conditional-minimum fold never exceeds its start value. -/
theorem foldl_condMin_le_init (v : Nat → Int) (P : Nat → Prop) [DecidablePred P]
    (L : List Nat) (a : Int) :
    L.foldl (fun mn j => if P j ∧ mn > v j then v j else mn) a ≤ a := by
  induction L generalizing a with
  | nil => exact le_rfl
  | cons x L ih =>
    refine le_trans (ih _) ?_
    show (if P x ∧ a > v x then v x else a) ≤ a
    by_cases h : P x ∧ a > v x
    · rw [if_pos h]; exact le_of_lt h.2
    · rw [if_neg h]

/-- The conditional-minimum fold is bounded by every admissible element. -/
theorem foldl_condMin_le_mem (v : Nat → Int) (P : Nat → Prop) [DecidablePred P]
    (L : List Nat) :
    ∀ (a : Int) (x : Nat), x ∈ L → P x →
      L.foldl (fun mn j => if P j ∧ mn > v j then v j else mn) a ≤ v x := by
  induction L with
  | nil => intro a x hx _; cases hx
  | cons y L ih =>
    intro a x hx hP
    rcases List.mem_cons.1 hx with rfl | hx'
    · refine le_trans (foldl_condMin_le_init v P L _) ?_
      show (if P x ∧ a > v x then v x else a) ≤ v x
      by_cases h : P x ∧ a > v x
      · rw [if_pos h]
      · rw [if_neg h]
        push_neg at h
        exact h hP
    · exact ih _ x hx' hP

/-- The conditional-minimum fold returns its start value or an admissible
element. -/
theorem foldl_condMin_cases (v : Nat → Int) (P : Nat → Prop) [DecidablePred P]
    (L : List Nat) (a : Int) :
    L.foldl (fun mn j => if P j ∧ mn > v j then v j else mn) a = a
      ∨ ∃ x ∈ L, P x ∧
          L.foldl (fun mn j => if P j ∧ mn > v j then v j else mn) a = v x := by
  induction L generalizing a with
  | nil => exact Or.inl rfl
  | cons y L ih =>
    by_cases hy : P y ∧ a > v y
    · have hstep : (y :: L).foldl (fun mn j => if P j ∧ mn > v j then v j else mn) a
          = L.foldl (fun mn j => if P j ∧ mn > v j then v j else mn) (v y) := by
        rw [List.foldl_cons]
        congr 1
        show (if P y ∧ a > v y then v y else a) = v y
        rw [if_pos hy]
      rw [hstep]
      rcases ih (v y) with h | ⟨x, hx, hPx, hex⟩
      · exact Or.inr ⟨y, List.mem_cons_self _ _, hy.1, h⟩
      · exact Or.inr ⟨x, List.mem_cons_of_mem _ hx, hPx, hex⟩
    · have hstep : (y :: L).foldl (fun mn j => if P j ∧ mn > v j then v j else mn) a
          = L.foldl (fun mn j => if P j ∧ mn > v j then v j else mn) a := by
        rw [List.foldl_cons]
        congr 1
        show (if P y ∧ a > v y then v y else a) = a
        rw [if_neg hy]
      rw [hstep]
      rcases ih a with h | ⟨x, hx, hPx, hex⟩
      · exact Or.inl h
      · exact Or.inr ⟨x, List.mem_cons_of_mem _ hx, hPx, hex⟩

/-- A fold whose step never increases the accumulator is bounded by its
start value. -/
theorem foldl_le_init_of_step (g : Int → Nat → Int) (hg : ∀ a x, g a x ≤ a)
    (L : List Nat) (a : Int) : L.foldl g a ≤ a := by
  induction L generalizing a with
  | nil => exact le_rfl
  | cons y L ih => exact le_trans (ih (g a y)) (hg a y)

/-- A non-increasing fold is bounded by any bound that one of its scanned
elements always enforces. -/
theorem foldl_le_of_mem_step (g : Int → Nat → Int) (hg : ∀ a x, g a x ≤ a)
    (L : List Nat) (B : Int) (x : Nat) (hB : ∀ a, g a x ≤ B) :
    ∀ (a : Int), x ∈ L → L.foldl g a ≤ B := by
  induction L with
  | nil => intro a hx; cases hx
  | cons y L ih =>
    intro a hx
    rcases List.mem_cons.1 hx with rfl | hx'
    · exact le_trans (foldl_le_init_of_step g hg L (g a x)) (hB a)
    · exact ih (g a y) hx'

/-- A fold each of whose steps either keeps the accumulator or establishes
a predicate of the final value returns the start value or establishes the
predicate for some scanned element. -/
theorem foldl_cases_of_step (g : Int → Nat → Int) (Q : Nat → Int → Prop)
    (hg : ∀ a x, g a x = a ∨ Q x (g a x)) (L : List Nat) :
    ∀ (a : Int), L.foldl g a = a ∨ ∃ x ∈ L, Q x (L.foldl g a) := by
  induction L with
  | nil => intro a; exact Or.inl rfl
  | cons y L ih =>
    intro a
    rw [List.foldl_cons]
    rcases ih (g a y) with h | ⟨x, hx, hQ⟩
    · rcases hg a y with h' | h'
      · exact Or.inl (h.trans h')
      · rw [← h] at h'
        exact Or.inr ⟨y, List.mem_cons_self _ _, h'⟩
    · exact Or.inr ⟨x, List.mem_cons_of_mem _ hx, hQ⟩

/-- Each outer step of the minimum fold of `kuhn_addAndSubtract` never
increases the accumulator. -/
theorem kuhn_addAndSubtract_step_le (t : Table) (rc cc : Cover) (m : Nat)
    (a : Int) (x : Nat) :
    (if ¬ rc x then (List.range m).foldl
        (fun mn j => if ¬ cc j ∧ mn > t x j then t x j else mn) a
      else a) ≤ a := by
  by_cases h : ¬ rc x
  · rw [if_pos h]
    exact foldl_condMin_le_init (t x) (fun j => ¬ cc j) _ _
  · rw [if_neg h]

/-- The minimum computed by `kuhn_addAndSubtract` never exceeds the literal
`0x7FFFffffL` it starts from. -/
theorem kuhn_addAndSubtract_min_le_cap (t : Table) (rc cc : Cover) (n m : Nat) :
    kuhn_addAndSubtract_min t rc cc n m ≤ 0x7FFFffff := by
  unfold kuhn_addAndSubtract_min
  exact foldl_le_init_of_step _ (kuhn_addAndSubtract_step_le t rc cc m) _ _

/-- The minimum computed by `kuhn_addAndSubtract` is a lower bound of every
cell whose row and column are both uncovered. -/
theorem kuhn_addAndSubtract_min_le_cell (t : Table) (rc cc : Cover) (n m i j : Nat)
    (hi : i < n) (hj : j < m) (hri : rc i = false) (hcj : cc j = false) :
    kuhn_addAndSubtract_min t rc cc n m ≤ t i j := by
  unfold kuhn_addAndSubtract_min
  refine foldl_le_of_mem_step _ (kuhn_addAndSubtract_step_le t rc cc m) _ (t i j) i
    ?_ _ (List.mem_range.2 hi)
  intro a
  show (if ¬ rc i then (List.range m).foldl
      (fun mn j => if ¬ cc j ∧ mn > t i j then t i j else mn) a
    else a) ≤ t i j
  rw [if_pos (by simp [hri])]
  exact foldl_condMin_le_mem (t i) (fun j => ¬ cc j) _ a j (List.mem_range.2 hj)
    (by simp [hcj])

/-- The minimum computed by `kuhn_addAndSubtract` is the cap or the value
of some doubly uncovered cell. -/
theorem kuhn_addAndSubtract_min_cases (t : Table) (rc cc : Cover) (n m : Nat) :
    kuhn_addAndSubtract_min t rc cc n m = 0x7FFFffff
      ∨ ∃ i, i < n ∧ rc i = false ∧ ∃ j, j < m ∧ cc j = false ∧
          kuhn_addAndSubtract_min t rc cc n m = t i j := by
  unfold kuhn_addAndSubtract_min
  have hstep : ∀ (a : Int) (x : Nat),
      (fun mn i => if ¬ rc i then (List.range m).foldl
          (fun mn j => if ¬ cc j ∧ mn > t i j then t i j else mn) mn
        else mn) a x = a
      ∨ (fun x b => rc x = false ∧ ∃ j, j < m ∧ cc j = false ∧ b = t x j) x
          ((fun mn i => if ¬ rc i then (List.range m).foldl
              (fun mn j => if ¬ cc j ∧ mn > t i j then t i j else mn) mn
            else mn) a x) := by
    intro a x
    show (if ¬ rc x then (List.range m).foldl
          (fun mn j => if ¬ cc j ∧ mn > t x j then t x j else mn) a
        else a) = a ∨ _
    by_cases h : ¬ rc x
    · rw [if_pos h]
      rcases foldl_condMin_cases (t x) (fun j => ¬ cc j) (List.range m) a with
        h' | ⟨j, hj, hcj, h'⟩
      · exact Or.inl h'
      · refine Or.inr ⟨by revert h; cases rc x <;> simp, j, List.mem_range.1 hj, ?_, ?_⟩
        · revert hcj; cases cc j <;> simp
        · show (if ¬ rc x then (List.range m).foldl
              (fun mn j => if ¬ cc j ∧ mn > t x j then t x j else mn) a
            else a) = t x j
          rw [if_pos h]
          exact h'
    · rw [if_neg h]
      exact Or.inl rfl
  rcases foldl_cases_of_step
      (fun mn i => if ¬ rc i then (List.range m).foldl
          (fun mn j => if ¬ cc j ∧ mn > t i j then t i j else mn) mn
        else mn)
      (fun x b => rc x = false ∧ ∃ j, j < m ∧ cc j = false ∧ b = t x j)
      hstep (List.range n) 0x7FFFffff with h | ⟨x, hx, hrx, j, hj, hcj, hb⟩
  · exact Or.inl h
  · exact Or.inr ⟨x, List.mem_range.1 hx, hrx, j, hj, hcj, hb⟩

/-- **C5** (amended).  `kuhn_addAndSubtract` computes the minimum of the
hard-coded cap `0x7FFFffffL` and the values of the doubly uncovered cells
(rather than the true minimum of the doubly uncovered cells, from which it
differs as soon as every such cell exceeds the cap), and adds that
quantity to every cell of a covered row while subtracting it from every
cell of an uncovered column. -/
theorem C5_addAndSubtract_capped (t : Table) (rc cc : Cover) (n m : Nat) :
    (kuhn_addAndSubtract_min t rc cc n m ≤ 0x7FFFffff
      ∧ (∀ i j, i < n → j < m → rc i = false → cc j = false →
          kuhn_addAndSubtract_min t rc cc n m ≤ t i j)
      ∧ (kuhn_addAndSubtract_min t rc cc n m = 0x7FFFffff
          ∨ ∃ i, i < n ∧ rc i = false ∧ ∃ j, j < m ∧ cc j = false ∧
              kuhn_addAndSubtract_min t rc cc n m = t i j))
    ∧ (∀ i j, i < n → j < m →
        kuhn_addAndSubtract t rc cc n m i j
          = t i j + (if rc i then kuhn_addAndSubtract_min t rc cc n m else 0)
              - (if cc j = false then kuhn_addAndSubtract_min t rc cc n m else 0)) := by
  refine ⟨⟨kuhn_addAndSubtract_min_le_cap t rc cc n m,
    fun i j hi hj hri hcj =>
      kuhn_addAndSubtract_min_le_cell t rc cc n m i j hi hj hri hcj,
    kuhn_addAndSubtract_min_cases t rc cc n m⟩, ?_⟩
  intro i j hi hj
  show (if i < n ∧ j < m then
      t i j + (if rc i then kuhn_addAndSubtract_min t rc cc n m else 0)
        - (if cc j = false then kuhn_addAndSubtract_min t rc cc n m else 0)
    else t i j) = _
  rw [if_pos ⟨hi, hj⟩]

/-- **C5** witness for the amended claim, at a concrete table. -/
theorem C5_addAndSubtract_capped_witness :
    kuhn_addAndSubtract_min (tableOf [[3,9],[4,7]]) noCover noCover 2 2
        ≤ tableOf [[3,9],[4,7]] 0 0
    ∧ kuhn_addAndSubtract (tableOf [[3,9],[4,7]]) noCover noCover 2 2 0 1
        = tableOf [[3,9],[4,7]] 0 1
          + (if noCover 0 then
              kuhn_addAndSubtract_min (tableOf [[3,9],[4,7]]) noCover noCover 2 2 else 0)
          - (if noCover 1 = false then
              kuhn_addAndSubtract_min (tableOf [[3,9],[4,7]]) noCover noCover 2 2 else 0) := by
  exact ⟨(C5_addAndSubtract_capped (tableOf [[3,9],[4,7]]) noCover noCover 2 2).1.2.1
      0 0 (by decide) (by decide) (by decide) (by decide),
    (C5_addAndSubtract_capped (tableOf [[3,9],[4,7]]) noCover noCover 2 2).2
      0 1 (by decide) (by decide)⟩

/-- **C5** counterexample: the single doubly uncovered cell holds
`2147483648 = 0x80000000`, a representable signed value; the computed
"minimum" is the hard-coded cap `2147483647`, not the true minimum
`2147483648`, and the subtraction step leaves the cell at `1` instead of
the `0` the claim's description would produce. -/
theorem C5_counterexample :
    kuhn_addAndSubtract_min (tableOf [[2147483648]]) noCover noCover 1 1 = 2147483647
    ∧ tableOf [[2147483648]] 0 0 = 2147483648
    ∧ noCover 0 = false
    ∧ kuhn_addAndSubtract (tableOf [[2147483648]]) noCover noCover 1 1 0 0 = 1 := by
  exact ⟨by decide, by decide, by decide, by decide⟩

/-- A set bit of a value below `2^w` has position below `w`. -/
theorem testBit_pos_lt (x w b : Nat) (hx : x < 2 ^ w) (hb : x.testBit b = true) :
    b < w := by
  by_contra hge
  have h1 : (2 : Nat) ^ w ≤ 2 ^ b := Nat.pow_le_pow_right (by omega) (by omega)
  have := Nat.testBit_implies_ge hb
  omega

/-- Turning on an already-set bit keeps the limb unchanged. -/
theorem lor_bit_eq_self (x k : Nat) (h : x.testBit k = true) :
    x ||| (1 <<< k) = x := by
  have hk : (1 : Nat) <<< k = 2 ^ k := by
    rw [Nat.shiftLeft_eq, one_mul]
  rw [hk]
  refine Nat.eq_of_testBit_eq (fun b => ?_)
  rw [Nat.testBit_or, Nat.testBit_two_pow]
  by_cases hb : k = b
  · subst hb; simp [h]
  · simp [hb]

/-- Turning off an already-clear bit keeps a 64-bit limb unchanged. -/
theorem land_mask_eq_self (x k : Nat) (hx : x < limbW) (h : x.testBit k = false) :
    x &&& ((limbW - 1) ^^^ (1 <<< k)) = x := by
  have hk : (1 : Nat) <<< k = 2 ^ k := by
    rw [Nat.shiftLeft_eq, one_mul]
  rw [hk]
  refine Nat.eq_of_testBit_eq (fun b => ?_)
  rw [Nat.testBit_and, Nat.testBit_xor]
  have hmask : (limbW - 1).testBit b = decide (b < 64) := by
    show ((2 : Nat) ^ 64 - 1).testBit b = decide (b < 64)
    exact Nat.testBit_two_pow_sub_one 64 b
  rw [hmask, Nat.testBit_two_pow]
  cases hxb : x.testBit b with
  | false => simp
  | true =>
    have hblt : b < 64 := testBit_pos_lt x 64 b hx hxb
    have hkb : k ≠ b := by
      intro hkb; rw [hkb] at h; rw [h] at hxb; cases hxb
    simp [hblt, hkb]

/-- **C10**.  `BitSet_set` on an index whose bit is already set, and
`BitSet_unset` on an index whose bit is already clear, leave the entire
`BitSet` (limbs, `first`, and both link arrays) unchanged, provided the
addressed limb is a genuine 64-bit value. -/
theorem C10_redundant_set_unset_noop (s : BitSet) (i : Nat)
    (hw : s.limbs (i >>> 6) < limbW) :
    (s.bitGet i = true → BitSet_set s i = s)
    ∧ (s.bitGet i = false → BitSet_unset s i = s) := by
  constructor
  · intro h
    have h2 : s.limbs (i >>> 6) ||| (1 <<< (i &&& 63)) = s.limbs (i >>> 6) :=
      lor_bit_eq_self _ _ h
    unfold BitSet_set
    simp only [h2, Bool.xor_self, Bool.false_eq_true, if_false,
      Function.update_eq_self]
  · intro h
    have h2 : s.limbs (i >>> 6) &&& ((limbW - 1) ^^^ (1 <<< (i &&& 63)))
        = s.limbs (i >>> 6) :=
      land_mask_eq_self _ _ hw h
    unfold BitSet_unset
    simp only [h2, Bool.xor_self, Bool.false_eq_true, if_false,
      Function.update_eq_self]

/-- **C10** witness: a concrete bit set with bit 3 set and bit 70 clear. -/
theorem C10_redundant_set_unset_noop_witness :
    (BitSet_set (BitSet_set (new_BitSet 128) 3) 3 = BitSet_set (new_BitSet 128) 3)
    ∧ (BitSet_unset (BitSet_set (new_BitSet 128) 3) 70 = BitSet_set (new_BitSet 128) 3) := by
  exact ⟨(C10_redundant_set_unset_noop (BitSet_set (new_BitSet 128) 3) 3
      (by decide)).1 (by decide),
    (C10_redundant_set_unset_noop (BitSet_set (new_BitSet 128) 3) 70
      (by decide)).2 (by decide)⟩

/-! ## The BitSet linked-limb invariant (claim C7) -/

/-- `linkedFrom` only inspects the links of the listed elements. -/
theorem linkedFrom_congr (nx nx' pv pv' : Nat → Nat) (L : List Nat)
    (hnx : ∀ x ∈ L, nx x = nx' x) (hpv : ∀ x ∈ L, pv x = pv' x) :
    ∀ p, linkedFrom nx pv p L → linkedFrom nx' pv' p L := by
  induction L with
  | nil => intro p _; trivial
  | cons y L ih =>
    intro p h
    obtain ⟨h1, h2, h3⟩ := h
    refine ⟨?_, ?_, ?_⟩
    · rw [← hpv y (List.mem_cons_self _ _)]; exact h1
    · rw [← hnx y (List.mem_cons_self _ _)]; exact h2
    · exact ih (fun x hx => hnx x (List.mem_cons_of_mem _ hx))
        (fun x hx => hpv x (List.mem_cons_of_mem _ hx)) y h3

/-- Pushing a fresh element at the front of the chain, exactly as
`BitSet_set` splices on a `0 → non-0` transition. -/
theorem linkedFrom_push (nx pv : Nat → Nat) (L : List Nat) (j1 : Nat)
    (hnd : L.Nodup) (hj : j1 ∉ L) (h1 : ∀ x ∈ L, 1 ≤ x)
    (hlf : linkedFrom nx pv 0 L) :
    linkedFrom (Function.update nx j1 (L.headD 0))
      (Function.update (Function.update pv (L.headD 0) j1) j1 0) 0 (j1 :: L) := by
  refine ⟨?_, ?_, ?_⟩
  · exact Function.update_same _ _ _
  · rw [Function.update_same]
  · cases L with
    | nil => trivial
    | cons y L' =>
      obtain ⟨hp, hn, hrest⟩ := hlf
      have hyj : y ≠ j1 := fun h => hj (h ▸ List.mem_cons_self _ _)
      refine ⟨?_, ?_, ?_⟩
      · show Function.update (Function.update pv y j1) j1 0 y = j1
        rw [Function.update_noteq hyj, Function.update_same]
      · show Function.update nx j1 ((y :: L').headD 0) y = L'.headD 0
        rw [Function.update_noteq hyj]
        exact hn
      · refine linkedFrom_congr nx _ pv _ L' ?_ ?_ y hrest
        · intro x hx
          have hxj : x ≠ j1 := fun h => hj (h ▸ List.mem_cons_of_mem _ hx)
          rw [Function.update_noteq hxj]
        · intro x hx
          have hxj : x ≠ j1 := fun h => hj (h ▸ List.mem_cons_of_mem _ hx)
          have hxy : x ≠ y := fun h => (List.nodup_cons.1 hnd).1 (h ▸ hx)
          show pv x = Function.update (Function.update pv y j1) j1 0 x
          rw [Function.update_noteq hxj, Function.update_noteq hxy]

/-- In a chain `A ++ j1 :: B`, the `prev` of `j1` is the last element of
`A` (or the anchor), and its `next` is the head of `B` (or `0`). -/
theorem linkedFrom_focus (nx pv : Nat → Nat) (j1 : Nat) :
    ∀ (A B : List Nat) (p : Nat), linkedFrom nx pv p (A ++ j1 :: B) →
      pv j1 = A.getLastD p ∧ nx j1 = B.headD 0 := by
  intro A
  induction A with
  | nil =>
    intro B p h
    obtain ⟨h1, h2, _⟩ := h
    exact ⟨h1, h2⟩
  | cons a A ih =>
    intro B p h
    obtain ⟨_, _, h3⟩ := h
    rcases ih B a h3 with ⟨hp, hn⟩
    refine ⟨?_, hn⟩
    rw [hp]
    cases A <;> rfl

/-- The last element (with default) of a non-empty list is one of its
elements. -/
theorem getLastD_mem_of_ne_nil : ∀ (l : List Nat) (d : Nat), l ≠ [] → l.getLastD d ∈ l := by
  intro l
  induction l with
  | nil => intro d h; cases h rfl
  | cons b l ih =>
    intro d _
    cases l with
    | nil => exact List.mem_cons_self _ _
    | cons c l' =>
      exact List.mem_cons_of_mem _ (ih b (by simp))

/-- Splicing an element out of the middle of the chain, exactly as
`BitSet_unset` does on a `non-0 → 0` transition: `prev[next[j1]] :=
prev[j1]` and `next[prev[j1]] := next[j1]`. -/
theorem linkedFrom_remove (nx pv : Nat → Nat) (j1 : Nat) :
    ∀ (A B : List Nat) (p : Nat),
      (A ++ j1 :: B).Nodup → (∀ x ∈ A ++ j1 :: B, 1 ≤ x) → p ∉ A ++ j1 :: B →
      linkedFrom nx pv p (A ++ j1 :: B) →
      linkedFrom (Function.update nx (pv j1) (nx j1))
        (Function.update pv (nx j1) (pv j1)) p (A ++ B) := by
  intro A
  induction A with
  | nil =>
    intro B p hnd h1 hpL hlf
    obtain ⟨hp, hn, hrest⟩ := hlf
    cases B with
    | nil => trivial
    | cons y B' =>
      obtain ⟨hpy, hny, hrest'⟩ := hrest
      have hpy' : p ≠ y := fun h => hpL (h ▸ List.mem_cons_of_mem _ (List.mem_cons_self _ _))
      have hyB' : y ∉ B' := by
        have := List.nodup_cons.1 (List.nodup_cons.1 hnd).2
        exact this.1
      have hj1B' : j1 ∉ B' := by
        have := (List.nodup_cons.1 hnd).1
        intro hmem; exact this (List.mem_cons_of_mem _ hmem)
      refine ⟨?_, ?_, ?_⟩
      · show Function.update pv (nx j1) (pv j1) y = p
        rw [hn, hp]
        show Function.update pv ((y :: B').headD 0) p y = p
        rw [List.headD_cons, Function.update_same]
      · show Function.update nx (pv j1) (nx j1) y = B'.headD 0
        rw [hp]
        rw [Function.update_noteq (Ne.symm hpy')]
        exact hny
      · refine linkedFrom_congr nx _ pv _ B' ?_ ?_ y hrest'
        · intro x hx
          rw [hp]
          have hxp : x ≠ p := fun h => hpL (by
            subst h
            exact List.mem_cons_of_mem _ (List.mem_cons_of_mem _ hx))
          rw [Function.update_noteq hxp]
        · intro x hx
          rw [hn]
          have hxy : x ≠ y := fun h => hyB' (h ▸ hx)
          show pv x = Function.update pv ((y :: B').headD 0) (pv j1) x
          rw [List.headD_cons, Function.update_noteq hxy]
  | cons a A' ih =>
    intro B p hnd h1 hpL hlf
    obtain ⟨hpa, hna, hrest⟩ := hlf
    have hfocus := linkedFrom_focus nx pv j1 (a :: A') B p
      ⟨hpa, hna, hrest⟩
    have haA : a ∉ A' ++ j1 :: B := (List.nodup_cons.1 hnd).1
    have hih := ih B a (List.nodup_cons.1 hnd).2
      (fun x hx => h1 x (List.mem_cons_of_mem _ hx)) haA hrest
    refine ⟨?_, ?_, hih⟩
    · show Function.update pv (nx j1) (pv j1) a = p
      have hnj1 : nx j1 = B.headD 0 := hfocus.2
      rw [hnj1]
      cases B with
      | nil =>
        have ha1 : 1 ≤ a := h1 a (List.mem_cons_self _ _)
        have hane : a ≠ ([] : List Nat).headD 0 := by
          simp only [List.headD_nil]
          omega
        rw [Function.update_noteq hane]
        exact hpa
      | cons y B' =>
        have hay : a ≠ y := by
          intro h
          exact haA (h ▸ List.mem_append_of_mem_right _ (List.mem_cons_of_mem _
            (List.mem_cons_self _ _)))
        rw [List.headD_cons, Function.update_noteq hay]
        exact hpa
    · show Function.update nx (pv j1) (nx j1) a = (A' ++ B).headD 0
      have hpj1 : pv j1 = (a :: A').getLastD p := hfocus.1
      cases A' with
      | nil =>
        have : pv j1 = a := by rw [hpj1]; rfl
        rw [this, Function.update_same, hfocus.2]
        rfl
      | cons b A'' =>
        have hlast : (b :: A'').getLastD a ∈ b :: A'' :=
          getLastD_mem_of_ne_nil _ _ (by simp)
        have hpj1' : pv j1 ∈ b :: A'' := by
          rw [hpj1]
          show (b :: A'').getLastD a ∈ b :: A''
          exact hlast
        have hane : a ≠ pv j1 := by
          intro h
          exact (List.nodup_cons.1 hnd).1
            (List.mem_append_of_mem_left _ (h ▸ hpj1'))
        rw [Function.update_noteq hane]
        rw [hna]
        rfl

/-- Decomposition of a bit index into limb index and bit-in-limb. -/
theorem bit_index_decomp (i : Nat) :
    i = 64 * (i >>> 6) + (i &&& 63) ∧ (i &&& 63) < 64 := by
  have h1 : i >>> 6 = i / 2 ^ 6 := Nat.shiftRight_eq_div_pow i 6
  have h2 : i &&& 63 = i % 2 ^ 6 := by
    have : (63 : Nat) = 2 ^ 6 - 1 := by norm_num
    rw [this]
    exact Nat.and_pow_two_sub_one_eq_mod i 6
  constructor
  · rw [h1, h2]
    omega
  · rw [h2]
    exact Nat.mod_lt _ (by norm_num)

/-- Two bit indices agree iff limb index and bit-in-limb both agree. -/
theorem bit_index_inj (i i' : Nat) (hl : i >>> 6 = i' >>> 6)
    (hb : i &&& 63 = i' &&& 63) : i = i' := by
  have h1 := bit_index_decomp i
  have h2 := bit_index_decomp i'
  omega

/-- The limbs after `BitSet_set` (identical in both branches). -/
theorem BitSet_set_limbs (s : BitSet) (i : Nat) :
    (BitSet_set s i).limbs
      = Function.update s.limbs (i >>> 6)
          (s.limbs (i >>> 6) ||| (1 <<< (i &&& 63))) := by
  unfold BitSet_set
  by_cases h : (decide (s.limbs (i >>> 6) ||| 1 <<< (i &&& 63) = 0)).xor
      (decide (s.limbs (i >>> 6) = 0)) = true
  · simp only [h, if_true]
  · simp only [eq_false_of_ne_true h, Bool.false_eq_true, if_false]

/-- The limbs after `BitSet_unset` (identical in both branches). -/
theorem BitSet_unset_limbs (s : BitSet) (i : Nat) :
    (BitSet_unset s i).limbs
      = Function.update s.limbs (i >>> 6)
          (s.limbs (i >>> 6) &&& ((limbW - 1) ^^^ (1 <<< (i &&& 63)))) := by
  unfold BitSet_unset
  by_cases h : (decide (s.limbs (i >>> 6) &&& ((limbW - 1) ^^^ (1 <<< (i &&& 63))) = 0)).xor
      (decide (s.limbs (i >>> 6) = 0)) = true
  · simp only [h, if_true]
  · simp only [eq_false_of_ne_true h, Bool.false_eq_true, if_false]

/-- `BitSet_set` sets the addressed bit and leaves every other bit alone. -/
theorem BitSet_set_bitGet (s : BitSet) (i i' : Nat) :
    (BitSet_set s i).bitGet i' = if i' = i then true else s.bitGet i' := by
  show ((BitSet_set s i).limbs (i' >>> 6)).testBit (i' &&& 63) = _
  rw [BitSet_set_limbs]
  by_cases hl : i' >>> 6 = i >>> 6
  · rw [hl, Function.update_same]
    have hk : (1 : Nat) <<< (i &&& 63) = 2 ^ (i &&& 63) := by
      rw [Nat.shiftLeft_eq, one_mul]
    rw [hk, Nat.testBit_or, Nat.testBit_two_pow]
    by_cases hb : i' &&& 63 = i &&& 63
    · have hii : i' = i := bit_index_inj i' i hl hb
      rw [if_pos hii, hb, decide_eq_true (rfl : (i &&& 63) = (i &&& 63))]
      simp
    · have hne : i' ≠ i := fun h => hb (h ▸ rfl)
      rw [decide_eq_false (fun h => hb (Eq.symm h)), Bool.or_false, if_neg hne]
      show _ = (s.limbs (i' >>> 6)).testBit (i' &&& 63)
      rw [hl]
  · rw [Function.update_noteq hl]
    have : i' ≠ i := fun h => hl (h ▸ rfl)
    simp [this]
    rfl

/-- `BitSet_unset` clears the addressed bit and leaves every other bit
alone (for genuine 64-bit limbs). -/
theorem BitSet_unset_bitGet (s : BitSet) (i i' : Nat) :
    (BitSet_unset s i).bitGet i' = if i' = i then false else s.bitGet i' := by
  show ((BitSet_unset s i).limbs (i' >>> 6)).testBit (i' &&& 63) = _
  rw [BitSet_unset_limbs]
  by_cases hl : i' >>> 6 = i >>> 6
  · rw [hl, Function.update_same]
    have hk : (1 : Nat) <<< (i &&& 63) = 2 ^ (i &&& 63) := by
      rw [Nat.shiftLeft_eq, one_mul]
    rw [hk, Nat.testBit_and, Nat.testBit_xor]
    have hmask : (limbW - 1).testBit (i' &&& 63) = decide ((i' &&& 63) < 64) := by
      show ((2 : Nat) ^ 64 - 1).testBit (i' &&& 63) = _
      exact Nat.testBit_two_pow_sub_one 64 (i' &&& 63)
    rw [hmask, Nat.testBit_two_pow]
    have hb64 : (i' &&& 63) < 64 := (bit_index_decomp i').2
    by_cases hb : i' &&& 63 = i &&& 63
    · have hii : i' = i := bit_index_inj i' i hl hb
      rw [if_pos hii, hb, decide_eq_true (rfl : (i &&& 63) = (i &&& 63)),
        decide_eq_true (hb ▸ hb64 : (i &&& 63) < 64)]
      simp
    · have hne : i' ≠ i := fun h => hb (h ▸ rfl)
      rw [if_neg hne, decide_eq_false (fun h => hb (Eq.symm h)),
        decide_eq_true hb64, Bool.xor_false, Bool.and_true]
      show _ = (s.limbs (i' >>> 6)).testBit (i' &&& 63)
      rw [hl]
  · rw [Function.update_noteq hl]
    have : i' ≠ i := fun h => hl (h ▸ rfl)
    simp [this]
    rfl

/-- `1 << k` is never zero. -/
theorem one_shiftLeft_ne_zero (k : Nat) : (1 : Nat) <<< k ≠ 0 := by
  rw [Nat.shiftLeft_eq, one_mul]
  exact (Nat.two_pow_pos k).ne'

/-- A disjunct of a bitwise or is dominated: `x ≠ 0 → x ||| y ≠ 0`. -/
theorem or_ne_zero_left (x y : Nat) (hx : x ≠ 0) : x ||| y ≠ 0 := by
  rcases Nat.ne_zero_implies_bit_true hx with ⟨b, hb⟩
  intro h0
  have : (x ||| y).testBit b = true := by
    rw [Nat.testBit_or, hb, Bool.true_or]
  rw [h0] at this
  simp [Nat.testBit] at this

/-- The shape of `BitSet_set` on a `0 → non-0` limb transition. -/
theorem BitSet_set_of_zero (s : BitSet) (i : Nat) (h : s.limbs (i >>> 6) = 0) :
    BitSet_set s i =
      { limbs := Function.update s.limbs (i >>> 6)
          (s.limbs (i >>> 6) ||| (1 <<< (i &&& 63)))
        first := (i >>> 6) + 1
        prev := Function.update (Function.update s.prev s.first ((i >>> 6) + 1))
          ((i >>> 6) + 1) 0
        next := Function.update s.next ((i >>> 6) + 1) s.first } := by
  have hcond : (decide (s.limbs (i >>> 6) ||| 1 <<< (i &&& 63) = 0)).xor
      (decide (s.limbs (i >>> 6) = 0)) = true := by
    rw [h]
    simp [Nat.zero_or, one_shiftLeft_ne_zero]
  show (if (decide (s.limbs (i >>> 6) ||| 1 <<< (i &&& 63) = 0)).xor
      (decide (s.limbs (i >>> 6) = 0)) = true then _ else _) = _
  rw [if_pos hcond]

/-- The shape of `BitSet_set` when the limb was already non-zero. -/
theorem BitSet_set_of_ne_zero (s : BitSet) (i : Nat) (h : s.limbs (i >>> 6) ≠ 0) :
    BitSet_set s i =
      { s with limbs := (Function.update s.limbs (i >>> 6)
          (s.limbs (i >>> 6) ||| (1 <<< (i &&& 63)))) } := by
  have hcond : ¬ ((decide (s.limbs (i >>> 6) ||| 1 <<< (i &&& 63) = 0)).xor
      (decide (s.limbs (i >>> 6) = 0)) = true) := by
    rw [decide_eq_false h, decide_eq_false (or_ne_zero_left _ _ h)]
    simp
  show (if (decide (s.limbs (i >>> 6) ||| 1 <<< (i &&& 63) = 0)).xor
      (decide (s.limbs (i >>> 6) = 0)) = true then _ else _) = _
  rw [if_neg hcond]

/-- The shape of `BitSet_unset` on a `non-0 → 0` limb transition. -/
theorem BitSet_unset_of_splice (s : BitSet) (i : Nat)
    (hold : s.limbs (i >>> 6) ≠ 0)
    (hnew : s.limbs (i >>> 6) &&& ((limbW - 1) ^^^ (1 <<< (i &&& 63))) = 0) :
    BitSet_unset s i =
      { limbs := Function.update s.limbs (i >>> 6)
          (s.limbs (i >>> 6) &&& ((limbW - 1) ^^^ (1 <<< (i &&& 63))))
        first := if s.first = (i >>> 6) + 1 then s.next ((i >>> 6) + 1) else s.first
        prev := Function.update s.prev (s.next ((i >>> 6) + 1)) (s.prev ((i >>> 6) + 1))
        next := Function.update s.next (s.prev ((i >>> 6) + 1)) (s.next ((i >>> 6) + 1)) } := by
  have hcond : (decide (s.limbs (i >>> 6) &&& ((limbW - 1) ^^^ (1 <<< (i &&& 63))) = 0)).xor
      (decide (s.limbs (i >>> 6) = 0)) = true := by
    rw [decide_eq_true hnew, decide_eq_false hold]
    rfl
  show (if (decide (s.limbs (i >>> 6) &&& ((limbW - 1) ^^^ (1 <<< (i &&& 63))) = 0)).xor
      (decide (s.limbs (i >>> 6) = 0)) = true then _ else _) = _
  rw [if_pos hcond]

/-- The shape of `BitSet_unset` when the limb does not become zero (or
already was zero). -/
theorem BitSet_unset_of_no_splice (s : BitSet) (i : Nat)
    (h : (s.limbs (i >>> 6) &&& ((limbW - 1) ^^^ (1 <<< (i &&& 63))) = 0)
        ↔ (s.limbs (i >>> 6) = 0)) :
    BitSet_unset s i =
      { s with limbs := (Function.update s.limbs (i >>> 6)
          (s.limbs (i >>> 6) &&& ((limbW - 1) ^^^ (1 <<< (i &&& 63))))) } := by
  have hcond : ¬ ((decide (s.limbs (i >>> 6) &&& ((limbW - 1) ^^^ (1 <<< (i &&& 63))) = 0)).xor
      (decide (s.limbs (i >>> 6) = 0)) = true) := by
    by_cases h0 : s.limbs (i >>> 6) = 0
    · rw [decide_eq_true h0, decide_eq_true (h.2 h0)]
      simp
    · rw [decide_eq_false h0, decide_eq_false (fun hx => h0 (h.1 hx))]
      simp
  show (if (decide (s.limbs (i >>> 6) &&& ((limbW - 1) ^^^ (1 <<< (i &&& 63))) = 0)).xor
      (decide (s.limbs (i >>> 6) = 0)) = true then _ else _) = _
  rw [if_neg hcond]

/-- A freshly constructed bit set is well formed (empty chain). -/
theorem BitSetWF_new (size : Nat) : BitSetWF size (new_BitSet size) := by
  refine ⟨[], List.nodup_nil, by simp, rfl, trivial, ?_, ?_, ?_⟩
  · intro k
    constructor
    · intro h; cases h rfl
    · intro h; cases h
  · intro k
    show (0 : Nat) < limbW
    exact Nat.two_pow_pos 64
  · intro i _
    show (0 : Nat).testBit (i &&& 63) = false
    exact Nat.zero_testBit _

/-- `BitSet_set` preserves well-formedness (for an in-range bit index). -/
theorem BitSetWF_set (size : Nat) (s : BitSet) (i : Nat) (hi : i < size)
    (h : BitSetWF size s) : BitSetWF size (BitSet_set s i) := by
  obtain ⟨L, hnd, h1, hfst, hlf, hmem, hlt, hhi⟩ := h
  have hk64 : (i &&& 63) < 64 := (bit_index_decomp i).2
  have hXlt : (1 : Nat) <<< (i &&& 63) < limbW := by
    rw [Nat.shiftLeft_eq, one_mul]
    exact Nat.pow_lt_pow_right (by norm_num) hk64
  have hhi' : ∀ i' : Nat, size ≤ i' → (BitSet_set s i).bitGet i' = false := by
    intro i' hi'
    rw [BitSet_set_bitGet]
    have : i' ≠ i := by omega
    rw [if_neg this]
    exact hhi i' hi'
  have hlt' : ∀ k : Nat, (BitSet_set s i).limbs k < limbW := by
    intro k
    rw [BitSet_set_limbs]
    by_cases hkj : k = i >>> 6
    · subst hkj
      rw [Function.update_same]
      exact Nat.or_lt_two_pow (hlt _) hXlt
    · rw [Function.update_noteq hkj]
      exact hlt k
  by_cases hold : s.limbs (i >>> 6) = 0
  · -- 0 → non-0 transition: push the limb at the front of the chain
    have hjL : ((i >>> 6) + 1) ∉ L := fun hin => (hmem (i >>> 6)).2 hin hold
    refine ⟨((i >>> 6) + 1) :: L, List.nodup_cons.2 ⟨hjL, hnd⟩,
      ?_, ?_, ?_, ?_, hlt', hhi'⟩
    · intro x hx
      rcases List.mem_cons.1 hx with rfl | hx'
      · omega
      · exact h1 x hx'
    · rw [BitSet_set_of_zero s i hold]
      rfl
    · rw [BitSet_set_of_zero s i hold]
      show linkedFrom (Function.update s.next ((i >>> 6) + 1) s.first)
        (Function.update (Function.update s.prev s.first ((i >>> 6) + 1))
          ((i >>> 6) + 1) 0) 0 (((i >>> 6) + 1) :: L)
      rw [hfst]
      exact linkedFrom_push s.next s.prev L ((i >>> 6) + 1) hnd hjL h1 hlf
    · intro k
      rw [BitSet_set_limbs]
      by_cases hkj : k = i >>> 6
      · subst hkj
        rw [Function.update_same, hold, Nat.zero_or]
        constructor
        · intro _; exact List.mem_cons_self _ _
        · intro _; exact one_shiftLeft_ne_zero _
      · rw [Function.update_noteq hkj]
        rw [hmem k]
        have hne : k + 1 ≠ (i >>> 6) + 1 := by omega
        constructor
        · intro hin; exact List.mem_cons_of_mem _ hin
        · intro hin
          rcases List.mem_cons.1 hin with heq | hin'
          · exact absurd heq hne
          · exact hin'
  · -- the limb stays non-zero: the chain is untouched
    have hjL : ((i >>> 6) + 1) ∈ L := (hmem (i >>> 6)).1 hold
    refine ⟨L, hnd, h1, ?_, ?_, ?_, hlt', hhi'⟩
    · rw [BitSet_set_of_ne_zero s i hold]
      exact hfst
    · rw [BitSet_set_of_ne_zero s i hold]
      exact hlf
    · intro k
      rw [BitSet_set_limbs]
      by_cases hkj : k = i >>> 6
      · subst hkj
        rw [Function.update_same]
        constructor
        · intro _; exact hjL
        · intro _; exact or_ne_zero_left _ _ hold
      · rw [Function.update_noteq hkj]
        exact hmem k

/-- `BitSet_unset` preserves well-formedness (for an in-range bit index). -/
theorem BitSetWF_unset (size : Nat) (s : BitSet) (i : Nat)
    (h : BitSetWF size s) : BitSetWF size (BitSet_unset s i) := by
  obtain ⟨L, hnd, h1, hfst, hlf, hmem, hlt, hhi⟩ := h
  have hhi' : ∀ i' : Nat, size ≤ i' → (BitSet_unset s i).bitGet i' = false := by
    intro i' hi'
    rw [BitSet_unset_bitGet]
    by_cases hii : i' = i
    · rw [if_pos hii]
    · rw [if_neg hii]; exact hhi i' hi'
  have hlt' : ∀ k : Nat, (BitSet_unset s i).limbs k < limbW := by
    intro k
    rw [BitSet_unset_limbs]
    by_cases hkj : k = i >>> 6
    · subst hkj; rw [Function.update_same]
      exact lt_of_le_of_lt Nat.and_le_left (hlt _)
    · rw [Function.update_noteq hkj]; exact hlt k
  by_cases hsplice : s.limbs (i >>> 6) ≠ 0
      ∧ s.limbs (i >>> 6) &&& ((limbW - 1) ^^^ (1 <<< (i &&& 63))) = 0
  · obtain ⟨hold, hnew⟩ := hsplice
    have hjL : ((i >>> 6) + 1) ∈ L := (hmem _).1 hold
    obtain ⟨A, B, rfl⟩ := List.append_of_mem hjL
    have hndAB := List.nodup_append.1 hnd
    have hj1A : (i >>> 6) + 1 ∉ A := fun hin => hndAB.2.2 hin (List.mem_cons_self _ _)
    have hj1B : (i >>> 6) + 1 ∉ B := (List.nodup_cons.1 hndAB.2.1).1
    have hp0 : (0 : Nat) ∉ A ++ ((i >>> 6) + 1) :: B := fun hin => by
      have := h1 0 hin; omega
    have hfocus := linkedFrom_focus s.next s.prev ((i >>> 6) + 1) A B 0 hlf
    refine ⟨A ++ B, ?_, ?_, ?_, ?_, ?_, hlt', hhi'⟩
    · exact List.Nodup.sublist
        (List.Sublist.append_left (List.sublist_cons_self _ _) A) hnd
    · intro x hx
      refine h1 x ?_
      rcases List.mem_append.1 hx with hxa | hxb
      · exact List.mem_append_of_mem_left _ hxa
      · exact List.mem_append_of_mem_right _ (List.mem_cons_of_mem _ hxb)
    · rw [BitSet_unset_of_splice s i hold hnew]
      show (if s.first = (i >>> 6) + 1 then s.next ((i >>> 6) + 1) else s.first)
        = (A ++ B).headD 0
      rw [hfst]
      cases A with
      | nil =>
        simp only [List.nil_append, List.headD_cons]
        rw [if_pos trivial, hfocus.2]
      | cons a A' =>
        have hne : a ≠ (i >>> 6) + 1 := fun heq => hj1A (heq ▸ List.mem_cons_self _ _)
        simp only [List.cons_append, List.headD_cons]
        rw [if_neg hne]
    · rw [BitSet_unset_of_splice s i hold hnew]
      show linkedFrom
        (Function.update s.next (s.prev ((i >>> 6) + 1)) (s.next ((i >>> 6) + 1)))
        (Function.update s.prev (s.next ((i >>> 6) + 1)) (s.prev ((i >>> 6) + 1)))
        0 (A ++ B)
      exact linkedFrom_remove s.next s.prev ((i >>> 6) + 1) A B 0 hnd h1 hp0 hlf
    · intro k
      rw [BitSet_unset_limbs]
      by_cases hkj : k = i >>> 6
      · subst hkj
        rw [Function.update_same, hnew]
        constructor
        · intro h0; exact absurd rfl h0
        · intro hin
          exfalso
          rcases List.mem_append.1 hin with hxa | hxb
          exacts [hj1A hxa, hj1B hxb]
      · rw [Function.update_noteq hkj, hmem k]
        have hne : k + 1 ≠ (i >>> 6) + 1 := by omega
        constructor
        · intro hin
          rcases List.mem_append.1 hin with hxa | hxb
          · exact List.mem_append_of_mem_left _ hxa
          · rcases List.mem_cons.1 hxb with heq | hxb'
            · exact absurd heq hne
            · exact List.mem_append_of_mem_right _ hxb'
        · intro hin
          rcases List.mem_append.1 hin with hxa | hxb
          · exact List.mem_append_of_mem_left _ hxa
          · exact List.mem_append_of_mem_right _ (List.mem_cons_of_mem _ hxb)
  · push_neg at hsplice
    have hiff : (s.limbs (i >>> 6) &&& ((limbW - 1) ^^^ (1 <<< (i &&& 63))) = 0)
        ↔ (s.limbs (i >>> 6) = 0) := by
      constructor
      · intro hz
        by_contra h0
        exact (hsplice h0) hz
      · intro h0
        rw [h0, Nat.zero_and]
    refine ⟨L, hnd, h1, ?_, ?_, ?_, hlt', hhi'⟩
    · rw [BitSet_unset_of_no_splice s i hiff]; exact hfst
    · rw [BitSet_unset_of_no_splice s i hiff]; exact hlf
    · intro k
      rw [BitSet_unset_limbs]
      by_cases hkj : k = i >>> 6
      · subst hkj
        rw [Function.update_same]
        constructor
        · intro hne
          exact (hmem _).1 (fun h0 => hne (hiff.2 h0))
        · intro hin hz
          exact ((hmem _).2 hin) (hiff.1 hz)
      · rw [Function.update_noteq hkj]; exact hmem k

/-- For an odd number, subtracting one changes no bit above position 0. -/
theorem odd_pred_testBit (m : Nat) (hm : m % 2 = 1) (b : Nat) (hb : 1 ≤ b) :
    (m - 1).testBit b = m.testBit b := by
  obtain ⟨t, rfl⟩ : ∃ t, m = 2 * t + 1 := ⟨m / 2, by omega⟩
  obtain ⟨b', rfl⟩ : ∃ b', b = b' + 1 := ⟨b - 1, by omega⟩
  have h1 : 2 * t + 1 - 1 = 2 * t := by omega
  rw [h1, Nat.testBit_add_one, Nat.testBit_add_one]
  have h2 : 2 * t / 2 = t := by omega
  have h3 : (2 * t + 1) / 2 = t := by omega
  rw [h2, h3]

/-- Two's-complement isolation of the lowest set bit: for a 64-bit limb
`x ≠ 0`, `x &&& (2^64 - x)` is a power of two whose exponent is a set bit
of `x` (the C idiom `x & -x`). -/
theorem land_neg_isolate (x : Nat) (h0 : 0 < x) (hw : x < limbW) :
    ∃ k, k < 64 ∧ x &&& (limbW - x) = 2 ^ k ∧ x.testBit k = true := by
  obtain ⟨k, m, hmodd, hx⟩ := Nat.exists_eq_two_pow_mul_odd (Nat.pos_iff_ne_zero.1 h0)
  have hm2 : m % 2 = 1 := Nat.odd_iff.1 hmodd
  have hm1 : 1 ≤ m := by omega
  have hxk : 2 ^ k ≤ x := by
    rw [hx]
    calc 2 ^ k = 2 ^ k * 1 := by ring
    _ ≤ 2 ^ k * m := Nat.mul_le_mul_left _ hm1
  have hk64 : k < 64 := by
    by_contra hge
    have : (2 : Nat) ^ 64 ≤ 2 ^ k := Nat.pow_le_pow_right (by norm_num) (by omega)
    have hwx : x < 2 ^ 64 := hw
    omega
  have hbitk : x.testBit k = true := by
    rw [hx, Nat.testBit_mul_pow_two]
    simp [hm2]
  refine ⟨k, hk64, ?_, hbitk⟩
  -- bits of x - 1
  have hxsub : x - 1 = 2 ^ k * (m - 1) + (2 ^ k - 1) := by
    have h2k : 1 ≤ 2 ^ k := Nat.one_le_two_pow
    have : 2 ^ k * m = 2 ^ k * (m - 1) + 2 ^ k := by
      have hm : m = (m - 1) + 1 := by omega
      calc 2 ^ k * m = 2 ^ k * ((m - 1) + 1) := by rw [← hm]
      _ = 2 ^ k * (m - 1) + 2 ^ k := by ring
    omega
  have hx1b : ∀ b, (x - 1).testBit b
      = if b < k then true else (m - 1).testBit (b - k) := by
    intro b
    rw [hxsub, Nat.testBit_mul_pow_two_add (m - 1)
      (Nat.sub_lt (Nat.two_pow_pos k) Nat.one_pos)]
    by_cases hb : b < k
    · rw [if_pos hb, if_pos hb, Nat.testBit_two_pow_sub_one]
      simp [hb]
    · rw [if_neg hb, if_neg hb]
  have hA : ∀ b, (limbW - x).testBit b = (decide (b < 64) && ! (x - 1).testBit b) := by
    intro b
    have hx1 : x - 1 + 1 = x := by omega
    have hlt : x - 1 < 2 ^ 64 := by
      have : x < 2 ^ 64 := hw
      omega
    show ((2 : Nat) ^ 64 - x).testBit b = _
    rw [← hx1]
    exact Nat.testBit_two_pow_sub_succ hlt b
  refine Nat.eq_of_testBit_eq (fun b => ?_)
  rw [Nat.testBit_and, hA, Nat.testBit_two_pow]
  rcases Nat.lt_trichotomy b k with hb | hb | hb
  · -- below the lowest set bit: x has a zero bit
    have hxb : x.testBit b = false := by
      rw [hx, Nat.testBit_mul_pow_two]
      simp [Nat.not_le.2 hb]
    rw [hxb]
    simp [Nat.ne_of_lt' hb]
  · -- the lowest set bit itself
    subst hb
    have hx1k : (x - 1).testBit b = false := by
      rw [hx1b, if_neg (lt_irrefl b)]
      have : m - 1 - 0 = m - 1 := rfl
      show (m - 1).testBit (b - b) = false
      have hbb : b - b = 0 := by omega
      rw [hbb]
      rw [Nat.testBit_zero]
      simp
      omega
    rw [hbitk, hx1k]
    simp [hk64]
  · -- above the lowest set bit: x and x-1 agree, so the and is zero
    by_cases hb64 : b < 64
    · have hx1bb : (x - 1).testBit b = x.testBit b := by
        rw [hx1b, if_neg (by omega : ¬ b < k)]
        rw [hx, Nat.testBit_mul_pow_two]
        rw [decide_eq_true (by omega : b ≥ k), Bool.true_and]
        exact odd_pred_testBit m hm2 (b - k) (by omega)
      rw [hx1bb]
      rw [decide_eq_true hb64, Bool.true_and]
      rw [decide_eq_false (by omega : ¬ k = b)]
      cases x.testBit b <;> rfl
    · have hxb : x.testBit b = false := by
        refine Nat.testBit_lt_two_pow ?_
        calc x < 2 ^ 64 := hw
        _ ≤ 2 ^ b := Nat.pow_le_pow_right (by norm_num) (by omega)
      rw [hxb]
      have hkb : ¬ k = b := by omega
      simp [hkb]

/-- The C bit-scan `lb` is correct on powers of two below `2^64`. -/
theorem lb_two_pow : ∀ k, k < 64 → lb (2 ^ k) = k := by decide

/-- Characterization of `BitSet_any` on a well-formed bit set: either the
set is empty (result `-1`) or the result is an index whose bit is set. -/
theorem BitSet_any_spec (size : Nat) (s : BitSet) (h : BitSetWF size s) :
    (BitSet_any s = -1 ∧ ∀ i, s.bitGet i = false)
    ∨ (0 ≤ BitSet_any s ∧ s.bitGet (BitSet_any s).toNat = true) := by
  obtain ⟨L, hnd, h1, hfst, hlf, hmem, hlt, hhi⟩ := h
  cases L with
  | nil =>
    left
    constructor
    · show (if s.first = 0 then (-1 : Int) else _) = -1
      rw [if_pos (show s.first = 0 from hfst)]
    · intro i
      have hz : s.limbs (i >>> 6) = 0 := by
        by_contra hne
        cases (hmem _).1 hne
      show (s.limbs (i >>> 6)).testBit (i &&& 63) = false
      rw [hz]
      exact Nat.zero_testBit _
  | cons y L' =>
    right
    have hy1 : 1 ≤ y := h1 y (List.mem_cons_self _ _)
    have hfy : s.first = y := hfst
    have hyL : (y - 1) + 1 ∈ y :: L' := by
      have : y - 1 + 1 = y := by omega
      rw [this]
      exact List.mem_cons_self _ _
    have hlimb : s.limbs (y - 1) ≠ 0 := (hmem (y - 1)).2 hyL
    obtain ⟨k, hk64, hiso, hbit⟩ :=
      land_neg_isolate (s.limbs (y - 1)) (Nat.pos_of_ne_zero hlimb) (hlt _)
    have hany : BitSet_any s
        = Int.ofNat (lb (s.limbs (y - 1) &&& (limbW - s.limbs (y - 1)))
            + ((y - 1) <<< 6)) := by
      show (if s.first = 0 then (-1 : Int) else _) = _
      rw [if_neg (by rw [hfy]; omega)]
      rw [hfy]
    rw [hany, hiso, lb_two_pow k hk64]
    have hsh : (y - 1) <<< 6 = (y - 1) * 64 := by
      rw [Nat.shiftLeft_eq]
    have hd := bit_index_decomp (k + ((y - 1) <<< 6))
    have hidx : (k + ((y - 1) <<< 6)) >>> 6 = y - 1
        ∧ (k + ((y - 1) <<< 6)) &&& 63 = k := by
      rw [hsh] at hd
      rw [hsh]
      constructor <;> omega
    constructor
    · exact Int.ofNat_nonneg _
    · show (s.limbs ((k + ((y - 1) <<< 6)) >>> 6)).testBit
        ((k + ((y - 1) <<< 6)) &&& 63) = true
      rw [hidx.1, hidx.2]
      exact hbit

/-- Following `next` from the head of a well-linked chain visits exactly
the chain. -/
theorem reachChain_eq (s : BitSet) :
    ∀ (L : List Nat) (p fuel : Nat), linkedFrom s.next s.prev p L →
      (∀ x ∈ L, 1 ≤ x) → L.length ≤ fuel →
      reachChain s fuel (L.headD 0) = L := by
  intro L
  induction L with
  | nil =>
    intro p fuel _ _ _
    cases fuel with
    | zero => rfl
    | succ f =>
      show (if (0 : Nat) = 0 then [] else _) = []
      rw [if_pos rfl]
  | cons y L' ih =>
    intro p fuel hlf h1 hfuel
    obtain ⟨hp, hn, hrest⟩ := hlf
    cases fuel with
    | zero => simp at hfuel
    | succ f =>
      have hy1 : 1 ≤ y := h1 y (List.mem_cons_self _ _)
      show (if y = 0 then [] else y :: reachChain s f (s.next y)) = y :: L'
      rw [if_neg (by omega), hn,
        ih y f hrest (fun x hx => h1 x (List.mem_cons_of_mem _ hx)) (by simpa using hfuel)]

/-- In a well-formed bit set, the limbs reachable by the linked traversal
are exactly the non-zero limbs. -/
theorem BitSetWF_reachable (size : Nat) (s : BitSet) (h : BitSetWF size s) :
    ∀ k : Nat, ((k + 1) ∈ BitSet_reachable s size ↔ s.limbs k ≠ 0) := by
  obtain ⟨L, hnd, h1, hfst, hlf, hmem, hlt, hhi⟩ := h
  have hub : ∀ x ∈ L, x ≤ size := by
    intro x hx
    have hx1 : 1 ≤ x := h1 x hx
    have hlimb : s.limbs (x - 1) ≠ 0 := (hmem (x - 1)).2 (by
      rwa [Nat.sub_add_cancel hx1])
    obtain ⟨b, hb⟩ := Nat.ne_zero_implies_bit_true hlimb
    have hb64 : b < 64 := testBit_pos_lt _ 64 b (hlt _) hb
    have hbit : s.bitGet (64 * (x - 1) + b) = true := by
      show (s.limbs ((64 * (x - 1) + b) >>> 6)).testBit
        ((64 * (x - 1) + b) &&& 63) = true
      have hd := bit_index_decomp (64 * (x - 1) + b)
      have hq : (64 * (x - 1) + b) >>> 6 = x - 1
          ∧ (64 * (x - 1) + b) &&& 63 = b := by
        constructor <;> omega
      rw [hq.1, hq.2]
      exact hb
    by_contra hgt
    have hge : size ≤ 64 * (x - 1) + b := by omega
    rw [hhi _ hge] at hbit
    cases hbit
  have hlen : L.length ≤ size := by
    classical
    calc L.length = L.toFinset.card := (List.toFinset_card_of_nodup hnd).symm
    _ ≤ (Finset.Icc 1 size).card := Finset.card_le_card (fun x hx =>
        Finset.mem_Icc.2 ⟨h1 x (List.mem_toFinset.1 hx), hub x (List.mem_toFinset.1 hx)⟩)
    _ = size := by rw [Nat.card_Icc]; omega
  intro k
  unfold BitSet_reachable
  rw [hfst, reachChain_eq s L 0 size hlf h1 hlen]
  exact (hmem k).symm

/-- Replaying in-range operations preserves well-formedness. -/
theorem BitSetWF_foldBOps (size : Nat) :
    ∀ (ops : List BOp) (s : BitSet), (∀ op ∈ ops, BOp.idx op < size) →
      BitSetWF size s → BitSetWF size (applyBOps ops s) := by
  intro ops
  induction ops with
  | nil => intro s _ hs; exact hs
  | cons op ops ih =>
    intro s hops hs
    refine ih _ (fun o ho => hops o (List.mem_cons_of_mem _ ho)) ?_
    cases op with
    | bset i => exact BitSetWF_set size s i (hops _ (List.mem_cons_self _ _)) hs
    | bunset i => exact BitSetWF_unset size s i hs

/-- **C7**.  After any sequence of in-range `BitSet_set` / `BitSet_unset`
operations on a freshly constructed `BitSet`, (a) the linked-chain
invariant `BitSetWF` holds, (b) a limb is reachable through the
`first`/`next` traversal structure iff it is non-zero, (c) `BitSet_any`
returns `-1` exactly when no bit is set, and (d) whenever some bit is set,
`BitSet_any` returns a non-negative index whose bit is currently set. -/
theorem C7_bitset_invariant (size : Nat) (ops : List BOp)
    (hops : ∀ op ∈ ops, BOp.idx op < size) :
    BitSetWF size (applyBOps ops (new_BitSet size))
    ∧ (∀ k : Nat, ((k + 1) ∈ BitSet_reachable (applyBOps ops (new_BitSet size)) size
        ↔ (applyBOps ops (new_BitSet size)).limbs k ≠ 0))
    ∧ (BitSet_any (applyBOps ops (new_BitSet size)) = -1
        ↔ (∀ i, (applyBOps ops (new_BitSet size)).bitGet i = false))
    ∧ (∀ i, (applyBOps ops (new_BitSet size)).bitGet i = true →
        0 ≤ BitSet_any (applyBOps ops (new_BitSet size))
        ∧ (applyBOps ops (new_BitSet size)).bitGet
            (BitSet_any (applyBOps ops (new_BitSet size))).toNat = true) := by
  have hwf := BitSetWF_foldBOps size ops (new_BitSet size) hops (BitSetWF_new size)
  refine ⟨hwf, BitSetWF_reachable size _ hwf, ?_, ?_⟩
  · rcases BitSet_any_spec size _ hwf with ⟨h1, h2⟩ | ⟨h1, h2⟩
    · exact ⟨fun _ => h2, fun _ => h1⟩
    · constructor
      · intro hm1
        rw [hm1] at h1
        exact absurd h1 (by decide)
      · intro hall
        rw [hall _] at h2
        cases h2
  · intro i hbit
    rcases BitSet_any_spec size _ hwf with ⟨h1, h2⟩ | ⟨h1, h2⟩
    · rw [h2 i] at hbit
      cases hbit
    · exact ⟨h1, h2⟩

/-- **C7** witness: a concrete replayed operation sequence spanning three
limbs, ending with a bit cleared. -/
theorem C7_bitset_invariant_witness :
    BitSetWF 130 (applyBOps [BOp.bset 3, BOp.bset 70, BOp.bset 129, BOp.bunset 3]
        (new_BitSet 130))
    ∧ (∀ k : Nat, ((k + 1) ∈ BitSet_reachable
          (applyBOps [BOp.bset 3, BOp.bset 70, BOp.bset 129, BOp.bunset 3]
            (new_BitSet 130)) 130
        ↔ (applyBOps [BOp.bset 3, BOp.bset 70, BOp.bset 129, BOp.bunset 3]
            (new_BitSet 130)).limbs k ≠ 0))
    ∧ (BitSet_any (applyBOps [BOp.bset 3, BOp.bset 70, BOp.bset 129, BOp.bunset 3]
          (new_BitSet 130)) = -1
        ↔ (∀ i, (applyBOps [BOp.bset 3, BOp.bset 70, BOp.bset 129, BOp.bunset 3]
            (new_BitSet 130)).bitGet i = false))
    ∧ (∀ i, (applyBOps [BOp.bset 3, BOp.bset 70, BOp.bset 129, BOp.bunset 3]
          (new_BitSet 130)).bitGet i = true →
        0 ≤ BitSet_any (applyBOps [BOp.bset 3, BOp.bset 70, BOp.bset 129, BOp.bunset 3]
            (new_BitSet 130))
        ∧ (applyBOps [BOp.bset 3, BOp.bset 70, BOp.bset 129, BOp.bunset 3]
            (new_BitSet 130)).bitGet
            (BitSet_any (applyBOps [BOp.bset 3, BOp.bset 70, BOp.bset 129, BOp.bunset 3]
              (new_BitSet 130))).toNat = true) :=
  C7_bitset_invariant 130 [BOp.bset 3, BOp.bset 70, BOp.bset 129, BOp.bunset 3]
    (by decide)

/-- A doubly uncovered zero cell makes the available-zero count positive. -/
theorem uncoveredZeroCount_pos (t : Table) (rc cc : Cover) (n m i j : Nat)
    (hi : i < n) (hj : j < m) (hri : rc i = false) (hcj : cc j = false)
    (hz : t i j = 0) : 0 < uncoveredZeroCount t rc cc n m := by
  have hmem : (i, j) ∈ cellList n m := by
    unfold cellList
    exact List.mem_flatMap.2 ⟨i, List.mem_range.2 hi,
      List.mem_map.2 ⟨j, List.mem_range.2 hj, rfl⟩⟩
  have hfil : (i, j) ∈ (cellList n m).filter
      (fun p => decide (rc p.1 = false ∧ cc p.2 = false ∧ t p.1 p.2 = 0)) :=
    List.mem_filter.2 ⟨hmem, by simp [hri, hcj, hz]⟩
  exact List.length_pos_of_mem hfil

/-- **C4** (amended).  A rebalance reached with no zero available under the
current cover strictly increases the number of available zeros *provided*
some doubly uncovered cell does not exceed the hard-coded cap
`0x7FFFffffL`; when every doubly uncovered cell exceeds the cap the count
can stay at zero (see `C4_counterexample`), so the claim's
every-rebalance-progress argument, and the O(n·m) cycle bound built on it,
do not hold as stated. -/
theorem C4_rebalance_zero_progress (t : Table) (rc cc : Cover) (n m : Nat)
    (hzero : uncoveredZeroCount t rc cc n m = 0)
    (i j : Nat) (hi : i < n) (hj : j < m) (hri : rc i = false) (hcj : cc j = false)
    (hcap : t i j ≤ 2147483647) :
    uncoveredZeroCount t rc cc n m
      < uncoveredZeroCount (kuhn_addAndSubtract t rc cc n m) rc cc n m := by
  rw [hzero]
  rcases kuhn_addAndSubtract_min_cases t rc cc n m with hm | ⟨i0, hi0, hr0, j0, hj0, hc0, hm⟩
  · have hle := kuhn_addAndSubtract_min_le_cell t rc cc n m i j hi hj hri hcj
    have heq : t i j = 2147483647 := by
      rw [hm] at hle
      omega
    refine uncoveredZeroCount_pos _ rc cc n m i j hi hj hri hcj ?_
    show (if i < n ∧ j < m then
        t i j + (if rc i then kuhn_addAndSubtract_min t rc cc n m else 0)
          - (if cc j = false then kuhn_addAndSubtract_min t rc cc n m else 0)
      else t i j) = 0
    rw [if_pos ⟨hi, hj⟩, if_neg (by simp [hri]), if_pos hcj, heq, hm]
    norm_num
  · refine uncoveredZeroCount_pos _ rc cc n m i0 j0 hi0 hj0 hr0 hc0 ?_
    show (if i0 < n ∧ j0 < m then
        t i0 j0 + (if rc i0 then kuhn_addAndSubtract_min t rc cc n m else 0)
          - (if cc j0 = false then kuhn_addAndSubtract_min t rc cc n m else 0)
      else t i0 j0) = 0
    rw [if_pos ⟨hi0, hj0⟩, if_neg (by simp [hr0]), if_pos hc0, hm]
    ring

/-- **C4** witness for the amended claim at a concrete state. -/
theorem C4_rebalance_zero_progress_witness :
    uncoveredZeroCount (tableOf [[1]]) noCover noCover 1 1
      < uncoveredZeroCount (kuhn_addAndSubtract (tableOf [[1]]) noCover noCover 1 1)
          noCover noCover 1 1 :=
  C4_rebalance_zero_progress (tableOf [[1]]) noCover noCover 1 1 (by decide)
    0 0 (by decide) (by decide) (by decide) (by decide) (by decide)

/-- **C4** counterexample: on `cexTable4` the first rebalance of the
actual run (the marking is incomplete, `kuhn_findPrime` reports no prime,
both doubly uncovered cells hold `2147483653 > 0x7FFFffff`) leaves the
number of zeros available under the current cover unchanged at `0` — the
rebalance step does *not* strictly increase it. -/
theorem C4_counterexample :
    (kuhn_isDone cexMarks4 noCover 2 2).2 = false
    ∧ ((kuhn_findPrime 5 cexReduced4 cexMarks4 noCover cexCol4 2 2).map
        (fun r => r.1)) = some none
    ∧ uncoveredZeroCount cexReduced4 noCover cexCol4 2 2 = 0
    ∧ uncoveredZeroCount (kuhn_addAndSubtract cexReduced4 noCover cexCol4 2 2)
        noCover cexCol4 2 2 = 0 := by
  exact ⟨by decide, by decide, by decide, by decide⟩
